import Mathlib

/-!
Verification of the conservation-scoring and motif-detection pipeline of
`motVIZ3` (`scripts/motviz/motvizpy/stats.py`, class `Analysis`).

Modelling conventions (shallow embedding):
* An alignment is a `List (List Char)` of rows (sequences); a column is a
  `List Char` of height N.
* Machine floats are idealised as exact rationals `ℚ` wherever the code only
  adds, subtracts, multiplies and divides.  A float division whose result is
  not a finite number (numpy's silent `0/0 → NaN`, `x/0 → ±inf`) is modelled
  as `none : Option ℚ`.  The transcendental `np.log2` forces the entropy
  score itself into `ℝ` (`Real.logb 2`).
* A Python exception (e.g. `ValueError` from `max()` on an empty sequence) is
  modelled as `none` in an `Option` result.
-/

namespace MotViz

/-! ## Conservation scorer (`Analysis._shannon`, `Analysis.conservation_score`)

`_shannon(array)` builds `aa_count = Counter(array)`, computes
`max_value = max(aa_count.values())` (which raises `ValueError` on an empty
column), then loops `for k, v in aa_count.items(): pA *= (v / 5)` — the
divisor is the literal `5` in the source, not the column height — and
returns `-np.sum(pA*np.log2(pA))`, i.e. `-(pA * log2 pA)` since `pA` is a
scalar. -/

/-- The product `pA` accumulated by the loop in `_shannon`: over the distinct
symbols of the column (`Counter` keys, first-occurrence order), the factor is
`count / 5` with the hardcoded divisor `5` from the source. -/
def pA (col : List Char) : ℚ :=
  (col.dedup.map (fun k => ((col.count k : ℚ) / 5))).prod

/-- `-(p * log2 p)`, the scalar wrap `-np.sum(pA*np.log2(pA))` applied to a
probability-product `p`. -/
noncomputable def shannonScore (p : ℚ) : ℝ :=
  -((p : ℝ) * Real.logb 2 (p : ℝ))

/-- `Analysis._shannon` on one column.  `max(aa_count.values())` raises
`ValueError` on an empty column (modelled `none`); otherwise the result is
`-(pA * log2 pA)`. -/
noncomputable def _shannon (col : List Char) : Option ℝ :=
  if col.isEmpty then none
  else some (shannonScore (pA col))

/-- `Analysis.conservation_score`: `np.apply_along_axis(self._shannon, 0, np_seq)`
applies `_shannon` to every column.  With zero rows the numpy array has shape
`(0,)` and `apply_along_axis` invokes `_shannon` once on the single empty
slice (which raises); otherwise each column of the matrix is scored. -/
noncomputable def conservation_score (rows : List (List Char)) : Option (List ℝ) :=
  if rows.isEmpty then Option.map (fun x => [x]) (_shannon [])
  else (List.transpose rows).mapM _shannon

/-- Modelled from the spec (§4.2), for comparison with `_shannon`: observation
probability `p = v / N` with `N` the column height, `P = Π p` over the
distinct symbols, score `-P * log2 P`. -/
noncomputable def shannonSpec (col : List Char) : ℝ :=
  shannonScore ((col.dedup.map (fun k => ((col.count k : ℚ) / col.length))).prod)

/-! ## Normalisation (`Analysis.normalize_data`)

`2.*(ent_list - np.min(ent_list))/np.ptp(ent_list) - 1` element-wise, with no
guard: when `np.ptp` (max − min) is zero the float division yields a
non-finite value (NaN) silently. -/

/-- `np.min` of a nonempty array (the `[]` case never occurs on `np.min`'s
defined inputs; `0` is a junk value). -/
def npMin : List ℚ → ℚ
  | [] => 0
  | a :: t => t.foldl min a

/-- `np.max` of a nonempty array (junk `0` on `[]`). -/
def npMax : List ℚ → ℚ
  | [] => 0
  | a :: t => t.foldl max a

/-- `np.ptp`: peak-to-peak, `max - min`. -/
def ptp (l : List ℚ) : ℚ := npMax l - npMin l

/-- Float division: `none` models a non-finite result (numpy's silent
`NaN`/`±inf` on a zero divisor). -/
def fdiv (a b : ℚ) : Option ℚ :=
  if b = 0 then none else some (a / b)

/-- `Analysis.normalize_data`: `2.*(x - min)/ptp - 1` applied to every
element; an element is `none` when the division did not produce a finite
number. -/
def normalize_data (ent_list : List ℚ) : List (Option ℚ) :=
  ent_list.map (fun x => (fdiv (2 * (x - npMin ent_list)) (ptp ent_list)).map (fun y => y - 1))

/-! ## Local minima (`Analysis.find_local_minima`)

`argrelextrema(data, np.less)` (order 1, boundary mode `clip`) yields exactly
the interior indices whose value is strictly below both neighbours; the
boundary indices compare a value with itself under `clip` and never qualify.
The loop then keeps those strictly below `np.mean(data)`. -/

/-- `scipy.signal.argrelextrema(data, np.less)`: ascending list of interior
strict local minima. -/
def argrelmin (data : List ℚ) : List ℕ :=
  (List.range data.length).filter (fun i =>
    decide (0 < i) && decide (i + 1 < data.length) &&
    decide (data.getD i 0 < data.getD (i - 1) 0) &&
    decide (data.getD i 0 < data.getD (i + 1) 0))

/-- `np.mean`: arithmetic mean (junk `0` on `[]`, where numpy yields NaN; the
value is only ever compared after `argrelmin` returned a nonempty list). -/
def npMean (l : List ℚ) : ℚ := l.sum / l.length

/-- `Analysis.find_local_minima`: the local minima whose value is strictly
below the mean of the data. -/
def find_local_minima (data : List ℚ) : List ℕ :=
  (argrelmin data).filter (fun j => decide (data.getD j 0 < npMean data))

/-! ## Moving average (`Analysis.moving_average`)

`avg_data = np.cumsum(data)`; `avg_data[n:] = avg_data[n:] - avg_data[:-n]`
(right-hand side read from the original cumulative sums); return
`avg_data[n-1:] / n`.  Faithful for `n ≥ 1` (with `n = 0` the numpy slice
assignment raises a broadcast error). -/

/-- `np.cumsum`: element `k` is the sum of the first `k+1` inputs. -/
def cumsum (l : List ℚ) : List ℚ :=
  (List.range l.length).map (fun k => (l.take (k + 1)).sum)

/-- `Analysis.moving_average`. -/
def moving_average (data : List ℚ) (n : ℕ) : List ℚ :=
  let c := cumsum data
  let c2 := (List.range c.length).map (fun k =>
    if n ≤ k then c.getD k 0 - c.getD (k - n) 0 else c.getD k 0)
  (c2.drop (n - 1)).map (fun x => x / (n : ℚ))

/-- Modelled from the spec (§4.3): output `i` is the arithmetic mean of
`input[i .. i+n-1]`, for `i` up to `len(input) - n`. -/
def movingAverageSpec (data : List ℚ) (n : ℕ) : List ℚ :=
  (List.range (data.length - n + 1)).map (fun i => ((data.drop i).take n).sum / (n : ℚ))

/-! ## Motif extraction (`Analysis.find_motif`)

For each minimum `i` with `i - 4 > 0`: `motif_stretch = data[i-1 : i+1]` (a
2-element slice when in range); if `np.all(motif_stretch < threshold)` then
append `motif_stretch[0]` and `i`.  On an empty slice `np.all` is `True` and
`motif_stretch[0]` raises `IndexError` (modelled `none`). -/

/-- Python slice `l[a:b]` for `0 ≤ a ≤ b` (out-of-range bounds clip). -/
def pySlice (l : List ℚ) (a b : ℕ) : List ℚ := (l.drop a).take (b - a)

/-- `Analysis.find_motif`: returns `(pos_motif, pos)`; `none` models the
`IndexError` on `motif_stretch[0]` when the slice is empty. -/
def find_motif (data : List ℚ) : List ℕ → ℚ → Option (List ℚ × List ℕ)
  | [], _ => some ([], [])
  | i :: rest, threshold =>
    if i - 4 > 0 then
      let stretch := pySlice data (i - 1) (i + 1)
      if stretch.all (fun x => decide (x < threshold)) then
        match stretch.head? with
        | none => none
        | some v =>
          (find_motif data rest threshold).map (fun p => (v :: p.1, i :: p.2))
      else find_motif data rest threshold
    else find_motif data rest threshold

end MotViz

namespace MotViz


/-! ## Moving-average lemmas -/

lemma cumsum_length (l : List ℚ) : (cumsum l).length = l.length := by
  simp [cumsum]

lemma cumsum_getD (l : List ℚ) (k : ℕ) (h : k < l.length) :
    (cumsum l).getD k 0 = (l.take (k + 1)).sum := by
  rw [List.getD_eq_getElem (cumsum l) 0 (by simpa [cumsum_length] using h)]
  simp [cumsum]

lemma moving_average_length (data : List ℚ) (n : ℕ) :
    (moving_average data n).length = data.length - (n - 1) := by
  simp [moving_average, cumsum_length]

theorem moving_average_eq_spec (data : List ℚ) (n : ℕ) (h1 : 1 ≤ n) (h2 : n ≤ data.length) :
    moving_average data n = movingAverageSpec data n := by
  apply List.ext_get
  · rw [moving_average_length]
    simp only [movingAverageSpec, List.length_map, List.length_range]
    omega
  · intro i hi1 hi2
    have hiL : i < data.length - (n - 1) := by
      simpa [moving_average_length] using hi1
    simp only [moving_average, movingAverageSpec, List.get_eq_getElem,
      List.getElem_map, List.getElem_drop, List.getElem_range]
    rcases Nat.eq_zero_or_pos i with hi0 | hipos
    · subst hi0
      rw [if_neg (by omega)]
      rw [cumsum_getD data (n - 1 + 0) (by omega)]
      have e0 : n - 1 + 0 + 1 = n := by omega
      rw [e0]
      simp
    · rw [if_pos (by omega)]
      rw [cumsum_getD data (n - 1 + i) (by omega),
          cumsum_getD data (n - 1 + i - n) (by omega)]
      have e1 : n - 1 + i + 1 = i + n := by omega
      have e2 : n - 1 + i - n + 1 = i := by omega
      rw [e1, e2, List.take_add]
      simp

lemma movingAverageSpec_getD (data : List ℚ) (n i : ℕ) (h : i < data.length - n + 1) :
    (movingAverageSpec data n).getD i 0 = ((data.drop i).take n).sum / (n : ℚ) := by
  rw [List.getD_eq_getElem (movingAverageSpec data n) 0 (by simpa [movingAverageSpec] using h)]
  simp [movingAverageSpec]

lemma moving_average_one (data : List ℚ) : moving_average data 1 = data := by
  rcases data with _ | ⟨a, t⟩
  · rfl
  · rw [moving_average_eq_spec _ 1 le_rfl (by simp)]
    apply List.ext_get
    · simp [movingAverageSpec]
    · intro i h1 h2
      have hi : i < (a :: t).length := h2
      simp only [movingAverageSpec, List.get_eq_getElem, List.getElem_map, List.getElem_range]
      rw [List.drop_eq_getElem_cons hi]
      simp

lemma moving_average_const (L n : ℕ) (c : ℚ) (h1 : 1 ≤ n) (h2 : n ≤ L) :
    moving_average (List.replicate L c) n = List.replicate (L - n + 1) c := by
  rw [moving_average_eq_spec _ n h1 (by simpa using h2)]
  apply List.ext_get
  · simp [movingAverageSpec]
  · intro i hh1 hh2
    have hi : i < L - n + 1 := by simpa [movingAverageSpec] using hh1
    simp only [movingAverageSpec, List.length_replicate, List.get_eq_getElem,
      List.getElem_map, List.getElem_range, List.getElem_replicate]
    rw [List.drop_replicate, List.take_replicate]
    have hmin : min n (L - i) = n := by omega
    rw [hmin, List.sum_replicate, nsmul_eq_mul]
    have hn : (n : ℚ) ≠ 0 := Nat.cast_ne_zero.mpr (by omega)
    rw [mul_div_cancel_left₀ c hn]

/-- Claim C7: for `1 ≤ n ≤ L` the cumulative-sum moving average has length
`L - n + 1` and equals the naive windowed mean, element by element. -/
theorem moving_average_refines_windowed_mean (data : List ℚ) (n : ℕ)
    (h1 : 1 ≤ n) (h2 : n ≤ data.length) :
    (moving_average data n).length = data.length - n + 1 ∧
    moving_average data n = movingAverageSpec data n ∧
    ∀ i, i < data.length - n + 1 →
      (moving_average data n).getD i 0 = ((data.drop i).take n).sum / (n : ℚ) := by
  refine ⟨?_, moving_average_eq_spec data n h1 h2, ?_⟩
  · rw [moving_average_length]; omega
  · intro i hi
    rw [moving_average_eq_spec data n h1 h2, movingAverageSpec_getD data n i hi]

theorem moving_average_refines_windowed_mean_witness :
    ((1 : ℕ) ≤ 3 ∧ 3 ≤ ([1, 2, 3, 4, 5] : List ℚ).length) ∧
    moving_average ([1, 2, 3, 4, 5] : List ℚ) 3 = movingAverageSpec [1, 2, 3, 4, 5] 3 ∧
    movingAverageSpec ([1, 2, 3, 4, 5] : List ℚ) 3 = [2, 3, 4] :=
  ⟨⟨by norm_num, by decide⟩,
   (moving_average_refines_windowed_mean [1, 2, 3, 4, 5] 3 (by norm_num) (by decide)).2.1,
   by norm_num [movingAverageSpec, List.range_succ]⟩

/-- Claim C8: window 1 is the identity and smoothing a constant sequence yields the
same constant. -/
theorem moving_average_one_and_const (data : List ℚ) (L : ℕ) (c : ℚ) (n : ℕ)
    (h1 : 1 ≤ n) (h2 : n ≤ L) :
    moving_average data 1 = data ∧
    moving_average (List.replicate L c) n = List.replicate (L - n + 1) c :=
  ⟨moving_average_one data, moving_average_const L n c h1 h2⟩

theorem moving_average_one_and_const_witness :
    moving_average ([3, 1, 2] : List ℚ) 1 = [3, 1, 2] ∧
    moving_average (List.replicate 4 (5 : ℚ)) 3 = List.replicate 2 (5 : ℚ) := by
  have h := moving_average_one_and_const [3, 1, 2] 4 5 3 (by norm_num) (by norm_num)
  simpa using h

/-- Claim C10: a window larger than the input yields the empty sequence, with no
error. -/
theorem moving_average_oversized_window (data : List ℚ) (n : ℕ)
    (h : data.length < n) : moving_average data n = [] := by
  apply List.eq_nil_of_length_eq_zero
  rw [moving_average_length]
  omega

theorem moving_average_oversized_window_witness :
    ([1, 2, 3] : List ℚ).length < 5 ∧ moving_average ([1, 2, 3] : List ℚ) 5 = [] :=
  ⟨by decide, moving_average_oversized_window [1, 2, 3] 5 (by decide)⟩


/-! ## Local-minima lemmas -/



/-- Claim C5: membership characterisation, ascending order, and the boundary
exclusion for `find_local_minima`. -/
theorem find_local_minima_characterisation (data : List ℚ) :
    (∀ i, i ∈ find_local_minima data ↔
      (0 < i ∧ i + 1 < data.length ∧
       data.getD i 0 < data.getD (i - 1) 0 ∧
       data.getD i 0 < data.getD (i + 1) 0 ∧
       data.getD i 0 < npMean data)) ∧
    List.Sorted (· < ·) (find_local_minima data) ∧
    ∀ i ∈ find_local_minima data, 0 < i ∧ i + 1 < data.length := by
  have hmem : ∀ i, i ∈ find_local_minima data ↔
      (0 < i ∧ i + 1 < data.length ∧
       data.getD i 0 < data.getD (i - 1) 0 ∧
       data.getD i 0 < data.getD (i + 1) 0 ∧
       data.getD i 0 < npMean data) := by
    intro i
    simp only [find_local_minima, argrelmin, List.mem_filter, List.mem_range,
      Bool.and_eq_true, decide_eq_true_eq]
    constructor
    · rintro ⟨⟨_, ⟨⟨h1, h2⟩, h3⟩, h4⟩, h5⟩
      exact ⟨h1, h2, h3, h4, h5⟩
    · rintro ⟨h1, h2, h3, h4, h5⟩
      exact ⟨⟨by omega, ⟨⟨h1, h2⟩, h3⟩, h4⟩, h5⟩
  refine ⟨hmem, ?_, ?_⟩
  · exact ((List.pairwise_lt_range _).filter _).filter _
  · intro i hi
    rcases (hmem i).1 hi with ⟨h1, h2, _⟩
    exact ⟨h1, h2⟩

/-! ## Motif-extraction lemmas -/

lemma pySlice_pair (data : List ℚ) (i : ℕ) (h1 : 1 ≤ i) (h2 : i < data.length) :
    pySlice data (i - 1) (i + 1) = [data.getD (i - 1) 0, data.getD i 0] := by
  have e : i + 1 - (i - 1) = 2 := by omega
  have hi1 : i - 1 < data.length := by omega
  unfold pySlice
  rw [e, List.drop_eq_getElem_cons hi1]
  have e2 : i - 1 + 1 = i := by omega
  rw [e2, List.drop_eq_getElem_cons h2]
  rw [List.getD_eq_getElem data 0 hi1, List.getD_eq_getElem data 0 h2]
  rfl

lemma find_motif_eq (data : List ℚ) (t : ℚ) :
    ∀ minima : List ℕ, (∀ i ∈ minima, i < data.length) →
      find_motif data minima t =
        some ((minima.filter (fun i => decide (i - 4 > 0) && decide (data.getD (i - 1) 0 < t) &&
                  decide (data.getD i 0 < t))).map (fun i => data.getD (i - 1) 0),
              minima.filter (fun i => decide (i - 4 > 0) && decide (data.getD (i - 1) 0 < t) &&
                  decide (data.getD i 0 < t))) := by
  intro minima
  induction minima with
  | nil => intro _; rfl
  | cons i rest ih =>
    intro h
    have hi : i < data.length := h i (List.mem_cons_self i rest)
    have hrest : ∀ j ∈ rest, j < data.length := fun j hj => h j (List.mem_cons_of_mem i hj)
    simp only [find_motif]
    by_cases h4 : i - 4 > 0
    · have h4' : 4 < i := by omega
      rw [if_pos h4, pySlice_pair data i (by omega) hi]
      by_cases hc1 : data.getD (i - 1) 0 < t
      · by_cases hc2 : data.getD i 0 < t
        · simp only [List.getD_eq_getElem?_getD] at hc1 hc2
          simp [List.filter_cons, h4', hc1, hc2, ih hrest]
        · simp only [List.getD_eq_getElem?_getD] at hc1 hc2
          simp [List.filter_cons, h4', hc1, hc2, ih hrest]
      · simp only [List.getD_eq_getElem?_getD] at hc1
        simp [List.filter_cons, h4', hc1, ih hrest]
    · have h4' : ¬4 < i := by omega
      rw [if_neg h4]
      simp [List.filter_cons, h4', ih hrest]

/-- Claim C4: `find_motif` records exactly the minima `i` with `i - 4 > 0` whose
2-element slice `data[i-1 : i+1]` lies strictly below the threshold, in input
order, recording `data[i-1]` (the first slice value) and `i`; every returned
index satisfies `i - 4 > 0`. -/
theorem find_motif_characterisation (data : List ℚ) (minima : List ℕ) (t : ℚ)
    (h : ∀ i ∈ minima, i < data.length) :
    find_motif data minima t =
      some ((minima.filter (fun i => decide (i - 4 > 0) && decide (data.getD (i - 1) 0 < t) &&
                decide (data.getD i 0 < t))).map (fun i => data.getD (i - 1) 0),
            minima.filter (fun i => decide (i - 4 > 0) && decide (data.getD (i - 1) 0 < t) &&
                decide (data.getD i 0 < t))) ∧
    ∀ ms ps, find_motif data minima t = some (ms, ps) → ∀ i ∈ ps, i - 4 > 0 := by
  have hmain := find_motif_eq data t minima h
  refine ⟨hmain, ?_⟩
  intro ms ps heq i hip
  have hpair := Option.some.inj (hmain.symm.trans heq)
  have hps : ps = minima.filter (fun i => decide (i - 4 > 0) &&
      decide (data.getD (i - 1) 0 < t) && decide (data.getD i 0 < t)) :=
    (congrArg Prod.snd hpair).symm
  rw [hps] at hip
  have := (List.mem_filter.mp hip).2
  simp only [Bool.and_eq_true, decide_eq_true_eq] at this
  exact this.1.1

theorem find_motif_characterisation_witness :
    (∀ i ∈ [5], i < ([0, 0, 0, 0, 0, 0, 0] : List ℚ).length) ∧
    find_motif ([0, 0, 0, 0, 0, 0, 0] : List ℚ) [5] 1 = some ([0], [5]) := by
  have h : ∀ i ∈ [5], i < ([0, 0, 0, 0, 0, 0, 0] : List ℚ).length := by decide
  refine ⟨h, ?_⟩
  rw [(find_motif_characterisation [0, 0, 0, 0, 0, 0, 0] [5] 1 h).1]
  norm_num [List.filter_cons, List.getD]

/-! ## Normalisation lemmas -/

lemma foldl_min_le (t : List ℚ) (a : ℚ) :
    t.foldl min a ≤ a ∧ ∀ x ∈ t, t.foldl min a ≤ x := by
  induction t generalizing a with
  | nil => exact ⟨le_rfl, by simp⟩
  | cons b s ih =>
    obtain ⟨h1, h2⟩ := ih (min a b)
    refine ⟨?_, ?_⟩
    · rw [List.foldl_cons]
      exact h1.trans (min_le_left a b)
    · intro x hx
      rcases List.mem_cons.mp hx with rfl | hx
      · rw [List.foldl_cons]
        exact h1.trans (min_le_right a x)
      · rw [List.foldl_cons]
        exact h2 x hx

lemma le_foldl_max (t : List ℚ) (a : ℚ) :
    a ≤ t.foldl max a ∧ ∀ x ∈ t, x ≤ t.foldl max a := by
  induction t generalizing a with
  | nil => exact ⟨le_rfl, by simp⟩
  | cons b s ih =>
    obtain ⟨h1, h2⟩ := ih (max a b)
    refine ⟨?_, ?_⟩
    · rw [List.foldl_cons]
      exact (le_max_left a b).trans h1
    · intro x hx
      rcases List.mem_cons.mp hx with rfl | hx
      · rw [List.foldl_cons]
        exact (le_max_right a x).trans h1
      · rw [List.foldl_cons]
        exact h2 x hx

lemma foldl_min_mem (t : List ℚ) (a : ℚ) : t.foldl min a ∈ a :: t := by
  induction t generalizing a with
  | nil => simp
  | cons b s ih =>
    rw [List.foldl_cons]
    rcases List.mem_cons.mp (ih (min a b)) with hm | hm
    · rw [hm]
      rcases min_choice a b with h2 | h2 <;> rw [h2]
      · exact List.mem_cons_self _ _
      · exact List.mem_cons_of_mem _ (List.mem_cons_self _ _)
    · exact List.mem_cons_of_mem _ (List.mem_cons_of_mem _ hm)

lemma foldl_max_mem (t : List ℚ) (a : ℚ) : t.foldl max a ∈ a :: t := by
  induction t generalizing a with
  | nil => simp
  | cons b s ih =>
    rw [List.foldl_cons]
    rcases List.mem_cons.mp (ih (max a b)) with hm | hm
    · rw [hm]
      rcases max_choice a b with h2 | h2 <;> rw [h2]
      · exact List.mem_cons_self _ _
      · exact List.mem_cons_of_mem _ (List.mem_cons_self _ _)
    · exact List.mem_cons_of_mem _ (List.mem_cons_of_mem _ hm)

lemma npMin_le (l : List ℚ) (x : ℚ) (hx : x ∈ l) : npMin l ≤ x := by
  rcases l with _ | ⟨a, t⟩
  · cases hx
  · rcases List.mem_cons.mp hx with rfl | hx
    · exact (foldl_min_le t x).1
    · exact (foldl_min_le t a).2 x hx

lemma le_npMax (l : List ℚ) (x : ℚ) (hx : x ∈ l) : x ≤ npMax l := by
  rcases l with _ | ⟨a, t⟩
  · cases hx
  · rcases List.mem_cons.mp hx with rfl | hx
    · exact (le_foldl_max t x).1
    · exact (le_foldl_max t a).2 x hx

lemma npMin_mem (l : List ℚ) (h : l ≠ []) : npMin l ∈ l := by
  rcases l with _ | ⟨a, t⟩
  · exact absurd rfl h
  · exact foldl_min_mem t a

lemma npMax_mem (l : List ℚ) (h : l ≠ []) : npMax l ∈ l := by
  rcases l with _ | ⟨a, t⟩
  · exact absurd rfl h
  · exact foldl_max_mem t a

/-- Claim C6: on a nonempty, non-constant sequence `normalize_data` computes
`2*(x - min)/(max - min) - 1` for every element (all finite, no NaN), the
results lie in `[-1, 1]`, and their minimum and maximum are exactly `-1`
and `1`. -/
theorem normalize_data_range (l : List ℚ) (hne : l ≠ []) (hnc : npMin l ≠ npMax l) :
    normalize_data l =
      (l.map (fun x => 2 * (x - npMin l) / (npMax l - npMin l) - 1)).map some ∧
    (∀ y ∈ l.map (fun x => 2 * (x - npMin l) / (npMax l - npMin l) - 1),
      -1 ≤ y ∧ y ≤ 1) ∧
    npMin (l.map (fun x => 2 * (x - npMin l) / (npMax l - npMin l) - 1)) = -1 ∧
    npMax (l.map (fun x => 2 * (x - npMin l) / (npMax l - npMin l) - 1)) = 1 := by
  have hlt : npMin l < npMax l :=
    lt_of_le_of_ne (npMin_le l (npMax l) (npMax_mem l hne)) hnc
  have hptp : ptp l ≠ 0 := by
    unfold ptp
    intro hzero
    exact hnc (by linarith)
  have hptp_pos : (0 : ℚ) < npMax l - npMin l := by linarith
  constructor
  · unfold normalize_data
    rw [List.map_map]
    apply List.map_congr_left
    intro x _
    simp only [Function.comp_apply, fdiv, if_neg hptp]
    unfold ptp
    simp [Option.map_some]
  refine ⟨?_, ?_, ?_⟩
  · intro y hy
    rcases List.mem_map.mp hy with ⟨x, hx, rfl⟩
    have hxmin : npMin l ≤ x := npMin_le l x hx
    have hxmax : x ≤ npMax l := le_npMax l x hx
    constructor
    · have : 0 ≤ 2 * (x - npMin l) / (npMax l - npMin l) :=
        div_nonneg (by linarith) (le_of_lt hptp_pos)
      linarith
    · have : 2 * (x - npMin l) / (npMax l - npMin l) ≤ 2 := by
        rw [div_le_iff₀ hptp_pos]
        linarith
      linarith
  · have hmem : (-1 : ℚ) ∈ l.map (fun x => 2 * (x - npMin l) / (npMax l - npMin l) - 1) := by
      refine List.mem_map.mpr ⟨npMin l, npMin_mem l hne, ?_⟩
      field_simp
    have hub : ∀ y ∈ l.map (fun x => 2 * (x - npMin l) / (npMax l - npMin l) - 1),
        (-1 : ℚ) ≤ y := by
      intro y hy
      rcases List.mem_map.mp hy with ⟨x, hx, rfl⟩
      have hxmin : npMin l ≤ x := npMin_le l x hx
      have : 0 ≤ 2 * (x - npMin l) / (npMax l - npMin l) :=
        div_nonneg (by linarith) (le_of_lt hptp_pos)
      linarith
    have hmapne : l.map (fun x => 2 * (x - npMin l) / (npMax l - npMin l) - 1) ≠ [] := by
      simpa using hne
    exact le_antisymm (npMin_le _ _ hmem)
      (hub _ (npMin_mem _ hmapne))
  · have hmem : (1 : ℚ) ∈ l.map (fun x => 2 * (x - npMin l) / (npMax l - npMin l) - 1) := by
      refine List.mem_map.mpr ⟨npMax l, npMax_mem l hne, ?_⟩
      field_simp
      ring
    have hub : ∀ y ∈ l.map (fun x => 2 * (x - npMin l) / (npMax l - npMin l) - 1),
        y ≤ (1 : ℚ) := by
      intro y hy
      rcases List.mem_map.mp hy with ⟨x, hx, rfl⟩
      have hxmax : x ≤ npMax l := le_npMax l x hx
      have : 2 * (x - npMin l) / (npMax l - npMin l) ≤ 2 := by
        rw [div_le_iff₀ hptp_pos]
        linarith
      linarith
    have hmapne : l.map (fun x => 2 * (x - npMin l) / (npMax l - npMin l) - 1) ≠ [] := by
      simpa using hne
    exact le_antisymm (hub _ (npMax_mem _ hmapne)) (le_npMax _ _ hmem)

theorem normalize_data_range_witness :
    (([0, 1] : List ℚ) ≠ [] ∧ npMin ([0, 1] : List ℚ) ≠ npMax ([0, 1] : List ℚ)) ∧
    normalize_data ([0, 1] : List ℚ) = [some (-1), some 1] := by
  have h1 : ([0, 1] : List ℚ) ≠ [] := by simp
  have h2 : npMin ([0, 1] : List ℚ) ≠ npMax ([0, 1] : List ℚ) := by
    norm_num [npMin, npMax]
  refine ⟨⟨h1, h2⟩, ?_⟩
  rw [(normalize_data_range [0, 1] h1 h2).1]
  norm_num [npMin, npMax]

/-! ## Conservation-scorer lemmas -/

lemma pA_uniform3 : pA ['A', 'A', 'A'] = 3 / 5 := by
  have hd : (['A', 'A', 'A'] : List Char).dedup = ['A'] := by decide
  have hc : (['A', 'A', 'A'] : List Char).count 'A' = 3 := by decide
  rw [pA, hd]
  simp [hc]

lemma shannonScore_one : shannonScore 1 = 0 := by
  simp [shannonScore]

lemma shannonScore_three_fifths_ne_zero : shannonScore (3 / 5) ≠ 0 := by
  have hcast : (((3 : ℚ) / 5 : ℚ) : ℝ) = 3 / 5 := by norm_num
  simp only [shannonScore, hcast]
  have hlog : Real.logb 2 ((3 : ℝ) / 5) < 0 :=
    Real.logb_neg (by norm_num) (by norm_num) (by norm_num)
  have hpos : (0 : ℝ) < -(3 / 5 * Real.logb 2 ((3 : ℝ) / 5)) := by nlinarith
  exact ne_of_gt hpos

/-- Claim C1: `_shannon` divides each count by the literal `5`, not by the
column height `N`; on a uniform column of height 3 it scores
`-(3/5)*log2(3/5)`, which is nonzero, while the spec formula `p = v/N`
gives `0`. -/
theorem shannon_uses_hardcoded_divisor_five :
    _shannon ['A', 'A', 'A'] = some (shannonScore (3 / 5)) ∧
    shannonSpec ['A', 'A', 'A'] = 0 ∧
    _shannon ['A', 'A', 'A'] ≠ some (shannonSpec ['A', 'A', 'A']) := by
  have h1 : _shannon ['A', 'A', 'A'] = some (shannonScore (3 / 5)) := by
    rw [_shannon]
    simp [pA_uniform3]
  have h2 : shannonSpec ['A', 'A', 'A'] = 0 := by
    have hd : (['A', 'A', 'A'] : List Char).dedup = ['A'] := by decide
    have hc : (['A', 'A', 'A'] : List Char).count 'A' = 3 := by decide
    rw [shannonSpec, hd]
    simp only [List.map_cons, List.map_nil, hc, List.length_cons, List.length_nil]
    norm_num [shannonScore_one]
  refine ⟨h1, h2, ?_⟩
  rw [h1, h2]
  simp [shannonScore_three_fifths_ne_zero]

/-- Claim C2: on the alignment of 3 identical sequences "AAAA" the raw score
of every column is `-(3/5)*log2(3/5)`, which is nonzero, not `[0,0,0,0]`. -/
theorem conservation_score_uniform3_nonzero :
    conservation_score [['A', 'A', 'A', 'A'], ['A', 'A', 'A', 'A'], ['A', 'A', 'A', 'A']] =
      some [shannonScore (3 / 5), shannonScore (3 / 5),
            shannonScore (3 / 5), shannonScore (3 / 5)] ∧
    shannonScore (3 / 5) ≠ 0 := by
  constructor
  · have ht : List.transpose [['A', 'A', 'A', 'A'], ['A', 'A', 'A', 'A'], ['A', 'A', 'A', 'A']] =
        [['A', 'A', 'A'], ['A', 'A', 'A'], ['A', 'A', 'A'], ['A', 'A', 'A']] := by decide
    rw [conservation_score, if_neg (by simp), ht]
    simp [List.mapM.loop, _shannon, pA_uniform3]
  · exact shannonScore_three_fifths_ne_zero

/-- Claim C9: conservation scoring of an alignment with zero sequences fails
(the error is modelled as `none`: `max()` raises on an empty symbol
counter). -/
theorem conservation_score_empty_alignment_fails :
    conservation_score [] = none := by
  rw [conservation_score]
  simp [_shannon]

/-- Claim C3: `normalize_data` has no degenerate-range guard: on a constant
score sequence it divides zero by zero element-wise and silently returns
non-finite values (`none` models NaN) instead of signalling an error. -/
theorem normalize_data_constant_silently_nan :
    normalize_data [0, 0] = [none, none] := by
  norm_num [normalize_data, fdiv, ptp, npMin, npMax]

end MotViz
